import Mathlib

/-!
# Verification of the `configfile` loader

A shallow embedding of `configfile.Load` (`src/configfile.go`).  The loader
reads a file line by line; each raw line is trimmed of surrounding
whitespace, blank lines and lines starting with `#` are skipped, every other
line is split at the first `=` into a name part and a value part, both parts
are trimmed, and the resulting pair is forwarded to the flag registry's
`Set` operation.  The first failure (a line with no `=`, or a failing `Set`)
aborts the load.

Lines are modelled as `List Char`; the file is the list of its lines (the
`bufio.Scanner` splitting and the I/O layer are outside the embedding).
The registry is modelled both abstractly (any state type `σ` with a
`set : σ → name → value → Option σ` operation) and concretely
(`flagSet` below, modelled from the spec's description of the external
flag registry).
-/

namespace ConfigFile

/-- `unicode.IsSpace` from Go, used by `strings.TrimSpace`: the Unicode
White_Space property (Latin-1 cases plus the higher code points). -/
def isSpace (c : Char) : Bool :=
  c == ' ' || c == '\t' || c == '\n' || c == '\x0B' || c == '\x0C' || c == '\r' ||
  c == '\u0085' || c == ' ' || c == ' ' ||
  (decide (0x2000 ≤ c.toNat) && decide (c.toNat ≤ 0x200A)) ||
  c == ' ' || c == ' ' || c == ' ' || c == ' ' || c == '　'

/-- Leading-whitespace trim (the left half of `strings.TrimSpace`). -/
def trimLeft (l : List Char) : List Char := l.dropWhile isSpace

/-- Trailing-whitespace trim (the right half of `strings.TrimSpace`). -/
def trimRight (l : List Char) : List Char := (l.reverse.dropWhile isSpace).reverse

/-- `strings.TrimSpace`: strip leading and trailing whitespace. -/
def trimSpace (l : List Char) : List Char := trimRight (trimLeft l)

/-- `strings.Cut(line, "=")`: split at the first occurrence of `'='`.
`none` corresponds to `found == false`. -/
def cut : List Char → Option (List Char × List Char)
  | [] => none
  | c :: cs =>
    if c = '=' then some ([], cs)
    else (cut cs).map (fun p => (c :: p.1, p.2))

/-- What the loop body of `Load` decides about one raw line. -/
inductive LineClass where
  | skip : LineClass
  | formatError : LineClass
  | entry : List Char → List Char → LineClass
deriving DecidableEq

/-- The per-line classification in `Load`: trim the raw line, skip it when
empty or starting with `#`, otherwise cut at the first `=` (a missing `=`
is a format error) and trim both parts. -/
def classifyLine (raw : List Char) : LineClass :=
  let line := trimSpace raw
  if line = [] ∨ line.head? = some '#' then .skip
  else
    match cut line with
    | none => .formatError
    | some (n, v) => .entry (trimSpace n) (trimSpace v)

/-- The name assigned by a raw line, when the line is an entry line. -/
def entryName (raw : List Char) : Option (List Char) :=
  match classifyLine raw with
  | .entry n _ => some n
  | _ => none

/-- Outcome of a load: the registry state when `Load` returns (errors cause
no rollback), whether it returned without error, and the trace of `(name,
value)` pairs forwarded to the registry's `Set`, in order. -/
structure LoadResult (σ : Type) where
  state : σ
  ok : Bool
  calls : List (List Char × List Char)

/-- The scan loop of `Load` over the file's lines: classify each line,
forward entries to the registry's `set`, and stop at the first format
error or `set` failure.  `set s n v = none` models `flag.Set` returning an
error (in which case the registry state is unchanged). -/
def loadLines {σ : Type} (set : σ → List Char → List Char → Option σ) :
    List (List Char) → σ → LoadResult σ
  | [], s => ⟨s, true, []⟩
  | raw :: rest, s =>
    match classifyLine raw with
    | .skip => loadLines set rest s
    | .formatError => ⟨s, false, []⟩
    | .entry n v =>
      match set s n v with
      | none => ⟨s, false, [(n, v)]⟩
      | some s' =>
        let r := loadLines set rest s'
        ⟨r.state, r.ok, (n, v) :: r.calls⟩

/-- Modelled from the spec: the external flag registry's static part (the
flag package is not part of this repository).  `known n` holds when a
setting named `n` is registered; `valid n v` holds when the text `v`
passes the type conversion/validation of setting `n`. -/
structure FlagSpec where
  known : List Char → Bool
  valid : List Char → List Char → Bool

/-- Modelled from the spec: the mutable part of the flag registry, mapping
each setting name to its current (textual) value. -/
def FlagValues : Type := List Char → List Char

/-- Modelled from the spec: `Set(name, value)` on the flag registry: fails
when the name is unknown or the value fails the setting's validation,
otherwise stores the value for that name. -/
def flagSet (fs : FlagSpec) (vals : FlagValues) (n v : List Char) : Option FlagValues :=
  if fs.known n && fs.valid n v then
    some (fun k => if k = n then v else vals k)
  else none

/-- Apply a list of `(name, value)` assignments to a registry state, in
order. -/
def applyCalls : List (List Char × List Char) → FlagValues → FlagValues
  | [], s => s
  | (n, v) :: rest, s => applyCalls rest (fun k => if k = n then v else s k)

/-- The value of the last assignment to `k` in a list of `(name, value)`
assignments, if any. -/
def lastAssign : List (List Char × List Char) → List Char → Option (List Char)
  | [], _ => none
  | (n, v) :: rest, k =>
    match lastAssign rest k with
    | some w => some w
    | none => if k = n then some v else none

/-- The assignments of a file that the concrete registry accepts before the
first error, computed from the lines alone (acceptance by `flagSet` does
not depend on the registry state). -/
def appliedCalls (fs : FlagSpec) : List (List Char) → List (List Char × List Char)
  | [] => []
  | raw :: rest =>
    match classifyLine raw with
    | .skip => appliedCalls fs rest
    | .formatError => []
    | .entry n v =>
      if fs.known n && fs.valid n v then (n, v) :: appliedCalls fs rest
      else []

/-- The characters of a string literal, for concrete inputs. -/
def str (s : String) : List Char := s.data

/-- A small concrete registry for concrete runs: every nonempty name is
registered, every value is accepted. -/
def fsW : FlagSpec := ⟨fun n => !n.isEmpty, fun _ _ => true⟩

/-- A concrete starting registry state: every setting holds the empty
string. -/
def valsW : FlagValues := fun _ => []

/-- A concrete starting registry state with a default for `server-host`,
as in the spec's §8 scenario. -/
def valsHost : FlagValues := fun n => if n = str "server-host" then str "localhost" else []

/-! ## Trimming lemmas -/

theorem isSpace_eq_false : isSpace '=' = false := by decide

theorem isSpace_hash : isSpace '#' = false := by decide

theorem dropWhile_append_all {p : Char → Bool} {w : List Char}
    (h : ∀ c ∈ w, p c = true) (l : List Char) :
    (w ++ l).dropWhile p = l.dropWhile p := by
  induction w with
  | nil => rfl
  | cons a w ih =>
    have ha : p a = true := h a (by simp)
    simp only [List.cons_append, List.dropWhile_cons, ha, if_true]
    exact ih (fun c hc => h c (by simp [hc]))

theorem dropWhile_append_stop {p : Char → Bool} {a : Char}
    (ha : p a = false) (xs ys : List Char) :
    (xs ++ a :: ys).dropWhile p = xs.dropWhile p ++ a :: ys := by
  induction xs with
  | nil => simp [List.dropWhile_cons, ha]
  | cons x xs ih =>
    by_cases hx : p x
    · simp [List.dropWhile_cons, hx, ih]
    · simp [List.dropWhile_cons, hx]

theorem trimLeft_append_spaces {w : List Char}
    (h : ∀ c ∈ w, isSpace c = true) (l : List Char) :
    trimLeft (w ++ l) = trimLeft l :=
  dropWhile_append_all h l

theorem trimLeft_cons_of_neg {a : Char} (ha : isSpace a = false) (l : List Char) :
    trimLeft (a :: l) = a :: l := by
  simp [trimLeft, List.dropWhile_cons, ha]

theorem trimRight_append_spaces {w : List Char}
    (h : ∀ c ∈ w, isSpace c = true) (l : List Char) :
    trimRight (l ++ w) = trimRight l := by
  simp only [trimRight, List.reverse_append]
  rw [dropWhile_append_all (by simpa using h)]

theorem trimRight_append_last {a : Char} (ha : isSpace a = false) (l : List Char) :
    trimRight (l ++ [a]) = l ++ [a] := by
  simp [trimRight, List.reverse_append, List.dropWhile_cons, ha]

theorem trimRight_cons_of_neg {a : Char} (ha : isSpace a = false) (l : List Char) :
    trimRight (a :: l) = a :: trimRight l := by
  have : (a :: l).reverse = l.reverse ++ a :: [] := by simp
  simp only [trimRight, this, dropWhile_append_stop ha]
  simp

theorem trimRight_nil : trimRight [] = [] := rfl

theorem trimSpace_nil : trimSpace [] = [] := rfl

/-- A list whose last element is not whitespace is unchanged by `trimRight`;
stated via `getLast?`. -/
theorem trimRight_eq_self {l : List Char}
    (h : ∀ c, l.getLast? = some c → isSpace c = false) : trimRight l = l := by
  cases hl : l.getLast? with
  | none =>
    have : l = [] := List.getLast?_eq_none_iff.mp hl
    simp [this, trimRight_nil]
  | some c =>
    obtain ⟨l', rfl⟩ : ∃ l', l = l' ++ [c] := by
      rcases List.eq_nil_or_concat' l with rfl | ⟨l', a, rfl⟩
      · simp at hl
      · refine ⟨l', ?_⟩
        simp only [List.getLast?_concat, Option.some.injEq] at hl
        rw [hl]
    exact trimRight_append_last (h c hl) l'

/-! ## Cut lemmas -/

theorem cut_append_left {a : List Char} (ha : '=' ∉ a) (b : List Char) :
    cut (a ++ '=' :: b) = some (a, b) := by
  induction a with
  | nil => simp [cut]
  | cons x xs ih =>
    have hx : x ≠ '=' := by rintro rfl; exact ha (by simp)
    have ih' := ih (fun h => ha (by simp [h]))
    simp [cut, hx, ih']

theorem cut_eq_none_iff {l : List Char} : cut l = none ↔ '=' ∉ l := by
  induction l with
  | nil => simp [cut]
  | cons x xs ih =>
    by_cases hx : x = '='
    · subst hx; simp [cut]
    · simp [cut, hx, Option.map_eq_none, ih, Ne.symm hx]

theorem cut_first {l : List Char} (h : '=' ∈ l) :
    cut l = some (l.takeWhile (fun c => !(c == '=')), (l.dropWhile (fun c => !(c == '='))).tail) := by
  induction l with
  | nil => simp at h
  | cons x xs ih =>
    by_cases hx : x = '='
    · subst hx; simp [cut, List.takeWhile_cons, List.dropWhile_cons]
    · have hxs : '=' ∈ xs := by
        rcases List.mem_cons.mp h with h' | h'
        · exact absurd h'.symm hx
        · exact h'
      simp [cut, hx, ih hxs, List.takeWhile_cons, List.dropWhile_cons]

/-! ## Classification lemmas -/

theorem classifyLine_eq (raw : List Char) :
    classifyLine raw =
      if trimSpace raw = [] ∨ (trimSpace raw).head? = some '#' then .skip
      else
        match cut (trimSpace raw) with
        | none => .formatError
        | some (n, v) => .entry (trimSpace n) (trimSpace v) := rfl

theorem not_eq_of_space {w : List Char} (hw : ∀ c ∈ w, isSpace c = true) : '=' ∉ w := by
  intro h
  have := hw '=' h
  rw [isSpace_eq_false] at this
  exact Bool.noConfusion this

/-- A line of the shape `<ws>name<ws>=<ws>value<ws>` — with `name` nonempty,
not starting with `#`, containing no `=`, and both `name` and `value`
carrying no surrounding whitespace — classifies as the entry
`(name, value)`. -/
theorem classify_sandwich {w1 w2 w3 w4 name value : List Char}
    (hw1 : ∀ c ∈ w1, isSpace c = true) (hw2 : ∀ c ∈ w2, isSpace c = true)
    (hw3 : ∀ c ∈ w3, isSpace c = true) (hw4 : ∀ c ∈ w4, isSpace c = true)
    (hne : name ≠ [])
    (hnh : ∀ c, name.head? = some c → isSpace c = false)
    (hnl : ∀ c, name.getLast? = some c → isSpace c = false)
    (hvh : ∀ c, value.head? = some c → isSpace c = false)
    (hvl : ∀ c, value.getLast? = some c → isSpace c = false)
    (hhash : name.head? ≠ some '#')
    (heq : '=' ∉ name) :
    classifyLine (w1 ++ name ++ w2 ++ '=' :: (w3 ++ value ++ w4)) = .entry name value := by
  obtain ⟨n0, ntl, rfl⟩ : ∃ n0 ntl, name = n0 :: ntl := by
    cases name with
    | nil => exact absurd rfl hne
    | cons a l => exact ⟨a, l, rfl⟩
  have hn0 : isSpace n0 = false := hnh n0 rfl
  have hn0h : n0 ≠ '#' := fun h => hhash (by simp [h])
  have hAeq : '=' ∉ (n0 :: ntl) ++ w2 := by
    intro h
    rcases List.mem_append.mp h with h | h
    · exact heq h
    · exact not_eq_of_space hw2 h
  have trimA : trimSpace ((n0 :: ntl) ++ w2) = n0 :: ntl := by
    rw [trimSpace, List.cons_append, trimLeft_cons_of_neg hn0, ← List.cons_append,
      trimRight_append_spaces hw2, trimRight_eq_self hnl]
  rcases List.eq_nil_or_concat' value with rfl | ⟨vd, c, rfl⟩
  · -- empty value: the whole tail after `=` is whitespace
    have hT : trimSpace (w1 ++ (n0 :: ntl) ++ w2 ++ '=' :: (w3 ++ [] ++ w4)) =
        ((n0 :: ntl) ++ w2) ++ '=' :: [] := by
      have e1 : w1 ++ (n0 :: ntl) ++ w2 ++ '=' :: (w3 ++ [] ++ w4) =
          w1 ++ (n0 :: (ntl ++ (w2 ++ ('=' :: (w3 ++ w4))))) := by simp
      rw [trimSpace, e1, trimLeft_append_spaces hw1, trimLeft_cons_of_neg hn0]
      have e2 : n0 :: (ntl ++ (w2 ++ ('=' :: (w3 ++ w4)))) =
          (n0 :: (ntl ++ (w2 ++ ['=']))) ++ (w3 ++ w4) := by simp
      rw [e2, trimRight_append_spaces (by
        intro d hd
        rcases List.mem_append.mp hd with hd | hd
        · exact hw3 d hd
        · exact hw4 d hd)]
      have e3 : n0 :: (ntl ++ (w2 ++ ['='])) = (n0 :: (ntl ++ w2)) ++ ['='] := by simp
      rw [e3, trimRight_append_last isSpace_eq_false]
      simp
    rw [classifyLine_eq, hT]
    rw [if_neg (by
      rintro (h | h)
      · exact absurd h (by simp)
      · simp only [List.cons_append, List.head?_cons, Option.some.injEq] at h
        exact hn0h h)]
    rw [cut_append_left hAeq]
    show LineClass.entry (trimSpace ((n0 :: ntl) ++ w2)) (trimSpace []) = _
    rw [trimA, trimSpace_nil]
  · -- nonempty value ending in the non-space character `c`
    have hc : isSpace c = false := hvl c (by simp)
    obtain ⟨v0, vtl, hv⟩ : ∃ v0 vtl, vd ++ [c] = v0 :: vtl := by
      cases hvd : vd ++ [c] with
      | nil => exact absurd hvd (by simp)
      | cons a l => exact ⟨a, l, rfl⟩
    have hv0 : isSpace v0 = false := hvh v0 (by rw [hv]; rfl)
    have trimB : trimSpace (w3 ++ (vd ++ [c])) = vd ++ [c] := by
      rw [trimSpace, trimLeft_append_spaces hw3, hv, trimLeft_cons_of_neg hv0, ← hv,
        trimRight_append_last hc]
    have hT : trimSpace (w1 ++ (n0 :: ntl) ++ w2 ++ '=' :: (w3 ++ (vd ++ [c]) ++ w4)) =
        ((n0 :: ntl) ++ w2) ++ '=' :: (w3 ++ (vd ++ [c])) := by
      have e1 : w1 ++ (n0 :: ntl) ++ w2 ++ '=' :: (w3 ++ (vd ++ [c]) ++ w4) =
          w1 ++ (n0 :: (ntl ++ (w2 ++ ('=' :: (w3 ++ (vd ++ ([c] ++ w4))))))) := by simp
      rw [trimSpace, e1, trimLeft_append_spaces hw1, trimLeft_cons_of_neg hn0]
      have e2 : n0 :: (ntl ++ (w2 ++ ('=' :: (w3 ++ (vd ++ ([c] ++ w4)))))) =
          ((n0 :: (ntl ++ (w2 ++ ('=' :: (w3 ++ vd))))) ++ [c]) ++ w4 := by simp
      rw [e2, trimRight_append_spaces hw4, trimRight_append_last hc]
      simp
    rw [classifyLine_eq, hT]
    rw [if_neg (by
      rintro (h | h)
      · exact absurd h (by simp)
      · simp only [List.cons_append, List.head?_cons, Option.some.injEq] at h
        exact hn0h h)]
    rw [cut_append_left hAeq]
    show LineClass.entry (trimSpace ((n0 :: ntl) ++ w2)) (trimSpace (w3 ++ (vd ++ [c]))) = _
    rw [trimA, trimB]

/-- A line that is whitespace followed by `=` classifies as an entry with
empty name. -/
theorem classify_empty_name {w : List Char} (hw : ∀ c ∈ w, isSpace c = true)
    (b : List Char) :
    classifyLine (w ++ '=' :: b) = .entry [] (trimSpace (trimRight b)) := by
  have hT : trimSpace (w ++ '=' :: b) = '=' :: trimRight b := by
    rw [trimSpace, trimLeft_append_spaces hw, trimLeft_cons_of_neg isSpace_eq_false,
      trimRight_cons_of_neg isSpace_eq_false]
  rw [classifyLine_eq, hT]
  rw [if_neg (by
    rintro (h | h)
    · exact absurd h (by simp)
    · simp only [List.head?_cons, Option.some.injEq] at h
      exact absurd h (by decide))]
  have hcut : cut ('=' :: trimRight b) = some ([], trimRight b) := by
    simp [cut]
  rw [hcut]
  show LineClass.entry (trimSpace []) (trimSpace (trimRight b)) = _
  rw [trimSpace_nil]

/-! ## Load-loop lemmas -/

theorem loadLines_nil {σ : Type} (set : σ → List Char → List Char → Option σ) (s : σ) :
    loadLines set [] s = ⟨s, true, []⟩ := rfl

theorem loadLines_cons_skip {σ : Type} (set : σ → List Char → List Char → Option σ)
    {raw : List Char} (h : classifyLine raw = .skip) (rest : List (List Char)) (s : σ) :
    loadLines set (raw :: rest) s = loadLines set rest s := by
  rw [loadLines, h]

theorem loadLines_cons_bad {σ : Type} (set : σ → List Char → List Char → Option σ)
    {raw : List Char} (h : classifyLine raw = .formatError) (rest : List (List Char)) (s : σ) :
    loadLines set (raw :: rest) s = ⟨s, false, []⟩ := by
  rw [loadLines, h]

theorem loadLines_cons_entry_fail {σ : Type} (set : σ → List Char → List Char → Option σ)
    {raw : List Char} {n v : List Char} (h : classifyLine raw = .entry n v)
    {s : σ} (hs : set s n v = none) (rest : List (List Char)) :
    loadLines set (raw :: rest) s = ⟨s, false, [(n, v)]⟩ := by
  simp only [loadLines, h, hs]

theorem loadLines_cons_entry_ok {σ : Type} (set : σ → List Char → List Char → Option σ)
    {raw : List Char} {n v : List Char} (h : classifyLine raw = .entry n v)
    {s s' : σ} (hs : set s n v = some s') (rest : List (List Char)) :
    loadLines set (raw :: rest) s =
      ⟨(loadLines set rest s').state, (loadLines set rest s').ok,
        (n, v) :: (loadLines set rest s').calls⟩ := by
  simp only [loadLines, h, hs]

/-- The load of a concatenation: if the first part fails, its result is the
whole result; otherwise the second part continues from the first part's
final state and the call traces concatenate. -/
theorem loadLines_append {σ : Type} (set : σ → List Char → List Char → Option σ)
    (xs ys : List (List Char)) (s : σ) :
    loadLines set (xs ++ ys) s =
      if (loadLines set xs s).ok then
        ⟨(loadLines set ys (loadLines set xs s).state).state,
         (loadLines set ys (loadLines set xs s).state).ok,
         (loadLines set xs s).calls ++ (loadLines set ys (loadLines set xs s).state).calls⟩
      else loadLines set xs s := by
  induction xs generalizing s with
  | nil => simp [loadLines_nil]
  | cons raw rest ih =>
    rw [List.cons_append]
    cases hc : classifyLine raw with
    | skip => rw [loadLines_cons_skip set hc, loadLines_cons_skip set hc, ih]
    | formatError =>
      rw [loadLines_cons_bad set hc, loadLines_cons_bad set hc]
      simp
    | entry n v =>
      cases hs : set s n v with
      | none =>
        rw [loadLines_cons_entry_fail set hc hs, loadLines_cons_entry_fail set hc hs]
        simp
      | some s' =>
        rw [loadLines_cons_entry_ok set hc hs, loadLines_cons_entry_ok set hc hs, ih s']
        cases hok : (loadLines set rest s').ok <;> simp [hok]

/-- A single entry line always forwards exactly its `(name, value)` pair to
the registry, whether or not the registry accepts it. -/
theorem loadLines_single_calls {σ : Type} (set : σ → List Char → List Char → Option σ)
    {raw : List Char} {n v : List Char} (h : classifyLine raw = .entry n v) (s : σ) :
    (loadLines set [raw] s).calls = [(n, v)] := by
  cases hs : set s n v with
  | none => rw [loadLines_cons_entry_fail set h hs]
  | some s' => rw [loadLines_cons_entry_ok set h hs]; rfl

/-! ## Concrete registry lemmas -/

theorem flagSet_pos {fs : FlagSpec} {n v : List Char}
    (h : (fs.known n && fs.valid n v) = true) (vals : FlagValues) :
    flagSet fs vals n v = some (fun k => if k = n then v else vals k) := by
  rw [flagSet, if_pos h]

theorem flagSet_neg {fs : FlagSpec} {n v : List Char}
    (h : ¬ (fs.known n && fs.valid n v) = true) (vals : FlagValues) :
    flagSet fs vals n v = none := by
  rw [flagSet, if_neg h]

/-- The registry state `Load` leaves behind is the fold of the accepted
assignments over the starting state — whether or not the load succeeded. -/
theorem loadLines_flag_state (fs : FlagSpec) (lines : List (List Char)) :
    ∀ s : FlagValues,
      (loadLines (flagSet fs) lines s).state = applyCalls (appliedCalls fs lines) s := by
  induction lines with
  | nil => intro s; rfl
  | cons raw rest ih =>
    intro s
    cases hc : classifyLine raw with
    | skip => rw [loadLines_cons_skip _ hc, appliedCalls, hc, ih]
    | formatError => rw [loadLines_cons_bad _ hc, appliedCalls, hc]; rfl
    | entry n v =>
      by_cases hk : (fs.known n && fs.valid n v) = true
      · rw [loadLines_cons_entry_ok _ hc (flagSet_pos hk s)]
        have ha : appliedCalls fs (raw :: rest) = (n, v) :: appliedCalls fs rest := by
          simp [appliedCalls, hc, hk]
        rw [ha, applyCalls]
        exact ih _
      · rw [loadLines_cons_entry_fail _ hc (flagSet_neg hk s)]
        have ha : appliedCalls fs (raw :: rest) = [] := by
          simp [appliedCalls, hc, hk]
        rw [ha]
        rfl

/-- Whether the load succeeds, and which pairs it forwards, do not depend on
the starting registry state. -/
theorem loadLines_flag_ok_calls (fs : FlagSpec) (lines : List (List Char)) :
    ∀ s t : FlagValues,
      (loadLines (flagSet fs) lines s).ok = (loadLines (flagSet fs) lines t).ok ∧
      (loadLines (flagSet fs) lines s).calls = (loadLines (flagSet fs) lines t).calls := by
  induction lines with
  | nil => intro s t; exact ⟨rfl, rfl⟩
  | cons raw rest ih =>
    intro s t
    cases hc : classifyLine raw with
    | skip => rw [loadLines_cons_skip _ hc, loadLines_cons_skip _ hc]; exact ih s t
    | formatError => rw [loadLines_cons_bad _ hc, loadLines_cons_bad _ hc]; exact ⟨rfl, rfl⟩
    | entry n v =>
      by_cases hk : (fs.known n && fs.valid n v) = true
      · rw [loadLines_cons_entry_ok _ hc (flagSet_pos hk s),
          loadLines_cons_entry_ok _ hc (flagSet_pos hk t)]
        obtain ⟨h1, h2⟩ := ih (fun k => if k = n then v else s k) (fun k => if k = n then v else t k)
        exact ⟨h1, by rw [h2]⟩
      · rw [loadLines_cons_entry_fail _ hc (flagSet_neg hk s),
          loadLines_cons_entry_fail _ hc (flagSet_neg hk t)]
        exact ⟨rfl, rfl⟩

/-- On a successful load, the forwarded pairs are exactly the accepted
assignments. -/
theorem loadLines_flag_calls_of_ok (fs : FlagSpec) (lines : List (List Char)) :
    ∀ s : FlagValues, (loadLines (flagSet fs) lines s).ok = true →
      (loadLines (flagSet fs) lines s).calls = appliedCalls fs lines := by
  induction lines with
  | nil => intro s _; rfl
  | cons raw rest ih =>
    intro s hok
    cases hc : classifyLine raw with
    | skip =>
      rw [loadLines_cons_skip _ hc] at hok ⊢
      rw [appliedCalls, hc, ih s hok]
    | formatError => rw [loadLines_cons_bad _ hc] at hok; exact Bool.noConfusion hok
    | entry n v =>
      by_cases hk : (fs.known n && fs.valid n v) = true
      · rw [loadLines_cons_entry_ok _ hc (flagSet_pos hk s)] at hok ⊢
        have ha : appliedCalls fs (raw :: rest) = (n, v) :: appliedCalls fs rest := by
          simp [appliedCalls, hc, hk]
        rw [ha]
        exact congrArg (fun l => (n, v) :: l) (ih _ hok)
      · rw [loadLines_cons_entry_fail _ hc (flagSet_neg hk s)] at hok
        exact Bool.noConfusion hok

/-- Pointwise characterisation of folding assignments: a key's final value
is its last assignment, or its starting value when never assigned. -/
theorem applyCalls_lastAssign (C : List (List Char × List Char)) :
    ∀ (s : FlagValues) (k : List Char),
      applyCalls C s k = (lastAssign C k).getD (s k) := by
  induction C with
  | nil => intro s k; rfl
  | cons p rest ih =>
    intro s k
    obtain ⟨n, v⟩ := p
    rw [applyCalls, lastAssign, ih]
    cases lastAssign rest k with
    | some w => rfl
    | none => by_cases h : k = n <;> simp [h]

/-! ## Trim-invariant inputs -/

theorem trim_eq_self {l : List Char} (h : trimSpace l = l) :
    trimLeft l = l ∧ trimRight l = l := by
  have h1 : (trimLeft l).length ≤ l.length :=
    ((List.dropWhile_suffix isSpace).sublist).length_le
  have h2 : (trimRight (trimLeft l)).length ≤ (trimLeft l).length := by
    rw [trimRight]
    calc ((trimLeft l).reverse.dropWhile isSpace).reverse.length
        = ((trimLeft l).reverse.dropWhile isSpace).length := by rw [List.length_reverse]
      _ ≤ (trimLeft l).reverse.length := ((List.dropWhile_suffix isSpace).sublist).length_le
      _ = (trimLeft l).length := by rw [List.length_reverse]
  rw [trimSpace] at h
  have hlen : (trimRight (trimLeft l)).length = l.length := by rw [h]
  have hll : (trimLeft l).length = l.length := le_antisymm h1 (by omega)
  have hL : trimLeft l = l :=
    ((List.dropWhile_suffix isSpace).sublist).eq_of_length hll
  refine ⟨hL, ?_⟩
  rw [hL] at h
  exact h

theorem head_not_space {l : List Char} (h : trimLeft l = l) :
    ∀ c, l.head? = some c → isSpace c = false := by
  intro c hc
  cases l with
  | nil => exact Option.noConfusion hc
  | cons a t =>
    have hac : a = c := by simpa using hc
    subst hac
    cases hs : isSpace a with
    | false => rfl
    | true =>
      rw [trimLeft, List.dropWhile_cons, if_pos hs] at h
      have hle : (t.dropWhile isSpace).length ≤ t.length :=
        ((List.dropWhile_suffix isSpace).sublist).length_le
      have hlen := congrArg List.length h
      simp at hlen
      omega

theorem last_not_space {l : List Char} (h : trimRight l = l) :
    ∀ c, l.getLast? = some c → isSpace c = false := by
  have h' : trimLeft l.reverse = l.reverse := by
    have hr := congrArg List.reverse h
    rw [trimRight, List.reverse_reverse] at hr
    exact hr
  intro c hc
  exact head_not_space h' c (by rw [← List.getLast?_eq_head?_reverse, hc])

/-- `classify_sandwich` with its no-surrounding-whitespace hypotheses in
trim form. -/
theorem classify_sandwich' {w1 w2 w3 w4 name value : List Char}
    (hw1 : ∀ c ∈ w1, isSpace c = true) (hw2 : ∀ c ∈ w2, isSpace c = true)
    (hw3 : ∀ c ∈ w3, isSpace c = true) (hw4 : ∀ c ∈ w4, isSpace c = true)
    (hne : name ≠ []) (hn : trimSpace name = name) (hv : trimSpace value = value)
    (hhash : name.head? ≠ some '#') (heq : '=' ∉ name) :
    classifyLine (w1 ++ name ++ w2 ++ '=' :: (w3 ++ value ++ w4)) = .entry name value := by
  obtain ⟨hnL, hnR⟩ := trim_eq_self hn
  obtain ⟨hvL, hvR⟩ := trim_eq_self hv
  exact classify_sandwich hw1 hw2 hw3 hw4 hne (head_not_space hnL) (last_not_space hnR)
    (head_not_space hvL) (last_not_space hvR) hhash heq

/-- A non-blank, non-comment line with no `=` is a format error. -/
theorem classify_formatError {raw : List Char} (h1 : trimSpace raw ≠ [])
    (h2 : (trimSpace raw).head? ≠ some '#') (h3 : '=' ∉ trimSpace raw) :
    classifyLine raw = .formatError := by
  rw [classifyLine_eq, if_neg (by rintro (h | h); exacts [h1 h, h2 h]),
    cut_eq_none_iff.mpr h3]

/-! ## Claims -/

/-- C1: Fail-fast with no rollback: if processing some line fails — its
stripped form is non-blank, non-comment and contains no `=`, or the
registry's `set` rejects the line's pair — then `Load` returns an error,
the registry keeps exactly the assignments made for earlier lines, and the
whole run (including the trace of pairs forwarded to the registry) equals
the run of the file truncated right after the failing line, so no pair
from any later line is forwarded. -/
theorem load_fail_fast {σ : Type} (set : σ → List Char → List Char → Option σ)
    (pre post : List (List Char)) (bad : List Char) (s : σ)
    (hpre : (loadLines set pre s).ok = true)
    (hbad : (trimSpace bad ≠ [] ∧ (trimSpace bad).head? ≠ some '#' ∧ '=' ∉ trimSpace bad) ∨
      ∃ n v, classifyLine bad = .entry n v ∧ set (loadLines set pre s).state n v = none) :
    (loadLines set (pre ++ bad :: post) s).ok = false ∧
    (loadLines set (pre ++ bad :: post) s).state = (loadLines set pre s).state ∧
    loadLines set (pre ++ bad :: post) s = loadLines set (pre ++ [bad]) s := by
  have hsingle : loadLines set (bad :: post) (loadLines set pre s).state =
      loadLines set [bad] (loadLines set pre s).state ∧
      (loadLines set [bad] (loadLines set pre s).state).ok = false ∧
      (loadLines set [bad] (loadLines set pre s).state).state = (loadLines set pre s).state := by
    rcases hbad with ⟨h1, h2, h3⟩ | ⟨n, v, hc, hs⟩
    · have hc := classify_formatError h1 h2 h3
      rw [loadLines_cons_bad set hc, loadLines_cons_bad set hc]
      exact ⟨rfl, rfl, rfl⟩
    · rw [loadLines_cons_entry_fail set hc hs, loadLines_cons_entry_fail set hc hs]
      exact ⟨rfl, rfl, rfl⟩
  obtain ⟨he, hok, hst⟩ := hsingle
  rw [loadLines_append, loadLines_append, if_pos hpre, if_pos hpre, he]
  exact ⟨hok, hst, rfl⟩

/-- Witness for C1: the `invalid_line` file from the repository's tests. -/
theorem load_fail_fast_witness :
    (loadLines (flagSet fsW) [str "key1 = value1"] valsW).ok = true ∧
    ((loadLines (flagSet fsW)
        ([str "key1 = value1"] ++ str "invalid_line" :: [str "key2 = value2"]) valsW).ok = false ∧
      (loadLines (flagSet fsW)
        ([str "key1 = value1"] ++ str "invalid_line" :: [str "key2 = value2"]) valsW).state =
        (loadLines (flagSet fsW) [str "key1 = value1"] valsW).state ∧
      loadLines (flagSet fsW)
        ([str "key1 = value1"] ++ str "invalid_line" :: [str "key2 = value2"]) valsW =
        loadLines (flagSet fsW) ([str "key1 = value1"] ++ [str "invalid_line"]) valsW) :=
  ⟨by decide,
    load_fail_fast (flagSet fsW) [str "key1 = value1"] [str "key2 = value2"]
      (str "invalid_line") valsW (by decide) (Or.inl ⟨by decide, by decide, by decide⟩)⟩

/-- C2: Trimming correctness: for a line `<ws>name<ws>=<ws>value<ws>` (with
`name` and `value` already carrying no surrounding whitespace, `name`
nonempty, not a comment opener and `=`-free), the pair forwarded to the
registry's `Set` is exactly `(name, value)`, and reading the setting back
afterwards returns the identical trimmed value string. -/
theorem load_trimming (fs : FlagSpec) (s : FlagValues)
    (w1 w2 w3 w4 name value : List Char)
    (hw1 : ∀ c ∈ w1, isSpace c = true) (hw2 : ∀ c ∈ w2, isSpace c = true)
    (hw3 : ∀ c ∈ w3, isSpace c = true) (hw4 : ∀ c ∈ w4, isSpace c = true)
    (hne : name ≠ []) (hn : trimSpace name = name) (hv : trimSpace value = value)
    (hhash : name.head? ≠ some '#') (heq : '=' ∉ name)
    (hkn : fs.known name = true) (hvd : fs.valid name value = true) :
    (loadLines (flagSet fs) [w1 ++ name ++ w2 ++ '=' :: (w3 ++ value ++ w4)] s).calls
      = [(name, value)] ∧
    (loadLines (flagSet fs) [w1 ++ name ++ w2 ++ '=' :: (w3 ++ value ++ w4)] s).state name
      = value := by
  have hc := classify_sandwich' hw1 hw2 hw3 hw4 hne hn hv hhash heq
  have hk : (fs.known name && fs.valid name value) = true := by rw [hkn, hvd]; rfl
  refine ⟨loadLines_single_calls _ hc s, ?_⟩
  rw [loadLines_cons_entry_ok _ hc (flagSet_pos hk s), loadLines_nil]
  simp

/-- Witness for C2: the whitespace-handling line from the repository's
tests. -/
theorem load_trimming_witness :
    (loadLines (flagSet fsW)
      [str "  " ++ str "key1" ++ str "    " ++ '=' :: (str "    " ++ str "value1" ++ str "    ")]
      valsW).calls = [(str "key1", str "value1")] ∧
    (loadLines (flagSet fsW)
      [str "  " ++ str "key1" ++ str "    " ++ '=' :: (str "    " ++ str "value1" ++ str "    ")]
      valsW).state (str "key1") = str "value1" :=
  load_trimming fsW valsW (str "  ") (str "    ") (str "    ") (str "    ")
    (str "key1") (str "value1") (by decide) (by decide) (by decide) (by decide)
    (by decide) (by decide) (by decide) (by decide) (by decide) (by decide) (by decide)

/-- C3: First-separator split: a non-blank, non-comment line containing at
least one `=` is split at the first `=`; everything after it — including
any further `=` characters, kept verbatim — becomes the value forwarded to
the registry (after trimming). -/
theorem load_first_separator {σ : Type} (set : σ → List Char → List Char → Option σ)
    (s : σ) (raw : List Char)
    (h1 : trimSpace raw ≠ []) (h2 : (trimSpace raw).head? ≠ some '#')
    (h3 : '=' ∈ trimSpace raw) :
    (loadLines set [raw] s).calls =
      [(trimSpace ((trimSpace raw).takeWhile (fun c => !(c == '='))),
        trimSpace (((trimSpace raw).dropWhile (fun c => !(c == '='))).tail))] := by
  have hc : classifyLine raw = .entry
      (trimSpace ((trimSpace raw).takeWhile (fun c => !(c == '='))))
      (trimSpace (((trimSpace raw).dropWhile (fun c => !(c == '='))).tail)) := by
    rw [classifyLine_eq, if_neg (by rintro (h | h); exacts [h1 h, h2 h]), cut_first h3]
  exact loadLines_single_calls _ hc s

/-- Witness for C3: a value containing further `=` characters. -/
theorem load_first_separator_witness :
    (loadLines (flagSet fsW) [str "k = a=b=c"] valsW).calls =
      [(trimSpace ((trimSpace (str "k = a=b=c")).takeWhile (fun c => !(c == '='))),
        trimSpace (((trimSpace (str "k = a=b=c")).dropWhile (fun c => !(c == '='))).tail))] :=
  load_first_separator (flagSet fsW) valsW (str "k = a=b=c")
    (by decide) (by decide) (by decide)

/-- C4: Last-write-wins: after a successful load, a setting assigned by the
file holds the value of the last line that assigned it (repeated
assignment to one name is not an error: the load shown succeeded). -/
theorem load_last_write_wins (fs : FlagSpec) (lines : List (List Char)) (s : FlagValues)
    (k v : List Char)
    (hok : (loadLines (flagSet fs) lines s).ok = true)
    (hlast : lastAssign (loadLines (flagSet fs) lines s).calls k = some v) :
    (loadLines (flagSet fs) lines s).state k = v := by
  rw [loadLines_flag_calls_of_ok fs lines s hok] at hlast
  rw [loadLines_flag_state, applyCalls_lastAssign, hlast]
  rfl

/-- Witness for C4: the flag-overriding file from the repository's tests. -/
theorem load_last_write_wins_witness :
    (loadLines (flagSet fsW)
      [str "key1 = value1", str "key1 = value2", str "key1 = value3"] valsW).state
      (str "key1") = str "value3" :=
  load_last_write_wins fsW
    [str "key1 = value1", str "key1 = value2", str "key1 = value3"] valsW
    (str "key1") (str "value3") (by decide) (by decide)

/-- C5: Idempotence: for every file and every starting registry state,
loading the same file twice in succession leaves the registry in the same
final state as loading it once. -/
theorem load_idempotent (fs : FlagSpec) (lines : List (List Char)) (s : FlagValues) :
    (loadLines (flagSet fs) lines (loadLines (flagSet fs) lines s).state).state =
      (loadLines (flagSet fs) lines s).state := by
  rw [loadLines_flag_state, loadLines_flag_state]
  funext k
  rw [applyCalls_lastAssign, applyCalls_lastAssign]
  cases lastAssign (appliedCalls fs lines) k <;> rfl

/-- C6: Blank and comment lines are skipped: a file whose every line strips
to empty or starts (after stripping) with `#` loads successfully, performs
no `Set` call and leaves the registry untouched — for any registry. -/
theorem load_blank_comment {σ : Type} (set : σ → List Char → List Char → Option σ)
    (lines : List (List Char)) :
    ∀ s : σ, (∀ l ∈ lines, trimSpace l = [] ∨ (trimSpace l).head? = some '#') →
      loadLines set lines s = ⟨s, true, []⟩ := by
  induction lines with
  | nil => intro s _; rfl
  | cons raw rest ih =>
    intro s h
    have hc : classifyLine raw = .skip := by
      rw [classifyLine_eq, if_pos (h raw (by simp))]
    rw [loadLines_cons_skip _ hc]
    exact ih s (fun l hl => h l (by simp [hl]))

/-- Witness for C6: a file of blank lines and comments only. -/
theorem load_blank_comment_witness :
    loadLines (flagSet fsW)
      [str "", str "   ", str "# comment", str "  # key1 = value1"] valsW =
      ⟨valsW, true, []⟩ :=
  load_blank_comment (flagSet fsW)
    [str "", str "   ", str "# comment", str "  # key1 = value1"] valsW (by decide)

/-- C7: Empty value is valid: a line `<ws>name<ws>=<ws>` is not an error
(when the registry knows `name` and accepts the empty string for it): the
load succeeds and sets the setting to the empty string. -/
theorem load_empty_value (fs : FlagSpec) (s : FlagValues) (w1 w2 w3 name : List Char)
    (hw1 : ∀ c ∈ w1, isSpace c = true) (hw2 : ∀ c ∈ w2, isSpace c = true)
    (hw3 : ∀ c ∈ w3, isSpace c = true)
    (hne : name ≠ []) (hn : trimSpace name = name)
    (hhash : name.head? ≠ some '#') (heq : '=' ∉ name)
    (hkn : fs.known name = true) (hvd : fs.valid name [] = true) :
    (loadLines (flagSet fs) [w1 ++ name ++ w2 ++ '=' :: w3] s).ok = true ∧
    (loadLines (flagSet fs) [w1 ++ name ++ w2 ++ '=' :: w3] s).state name = [] := by
  have hw4 : ∀ c ∈ ([] : List Char), isSpace c = true := by intro c hc; cases hc
  have hc : classifyLine (w1 ++ name ++ w2 ++ '=' :: w3) = .entry name [] := by
    have hc' := classify_sandwich' hw1 hw2 hw3 hw4 hne hn trimSpace_nil hhash heq
    rwa [show w3 ++ ([] : List Char) ++ [] = w3 from by simp] at hc'
  have hk : (fs.known name && fs.valid name []) = true := by rw [hkn, hvd]; rfl
  constructor
  · rw [loadLines_cons_entry_ok _ hc (flagSet_pos hk s), loadLines_nil]
  · rw [loadLines_cons_entry_ok _ hc (flagSet_pos hk s), loadLines_nil]
    simp

/-- Witness for C7: the `key1 = ` line from the repository's tests. -/
theorem load_empty_value_witness :
    (loadLines (flagSet fsW) [[] ++ str "key1" ++ str " " ++ '=' :: str " "] valsW).ok = true ∧
    (loadLines (flagSet fsW) [[] ++ str "key1" ++ str " " ++ '=' :: str " "] valsW).state
      (str "key1") = [] :=
  load_empty_value fsW valsW [] (str " ") (str " ") (str "key1")
    (by decide) (by decide) (by decide) (by decide) (by decide) (by decide) (by decide)
    (by decide) (by decide)

/-- C8: Empty name is rejected: a file containing a line whose part before
the first `=` is all whitespace makes `Load` return an error, given a
registry whose `Set` fails for the empty name (no setting is registered
under it). -/
theorem load_empty_name {σ : Type} (set : σ → List Char → List Char → Option σ)
    (pre post : List (List Char)) (w b : List Char) (s : σ)
    (hw : ∀ c ∈ w, isSpace c = true)
    (hset : ∀ (t : σ) (v : List Char), set t [] v = none) :
    (loadLines set (pre ++ (w ++ '=' :: b) :: post) s).ok = false := by
  rw [loadLines_append]
  by_cases hok : (loadLines set pre s).ok = true
  · rw [if_pos hok, loadLines_cons_entry_fail set (classify_empty_name hw b) (hset _ _)]
  · rw [if_neg hok]
    exact Bool.eq_false_iff.mpr hok

/-- Witness for C8: the `= value1` file from the repository's tests. -/
theorem load_empty_name_witness :
    (loadLines (flagSet fsW)
      ([] ++ (str " " ++ '=' :: str " value1") :: [str "key2 = value2"]) valsW).ok = false :=
  load_empty_name (flagSet fsW) [] [str "key2 = value2"] (str " ") (str " value1") valsW
    (by decide) (fun t v => rfl)

/-- C9: Frame property: a setting whose name is assigned by no entry line of
the file keeps its value across the load; `Load` mutates only the settings
named in the file's entry lines. -/
theorem load_frame (fs : FlagSpec) (lines : List (List Char)) (k : List Char) :
    ∀ s : FlagValues, (∀ raw ∈ lines, entryName raw ≠ some k) →
      (loadLines (flagSet fs) lines s).state k = s k := by
  induction lines with
  | nil => intro s _; rfl
  | cons raw rest ih =>
    intro s h
    cases hc : classifyLine raw with
    | skip =>
      rw [loadLines_cons_skip _ hc]
      exact ih s (fun l hl => h l (by simp [hl]))
    | formatError => rw [loadLines_cons_bad _ hc]
    | entry n v =>
      have hen : entryName raw = some n := by simp [entryName, hc]
      have hnk : n ≠ k := fun hnkeq => h raw (by simp) (by rw [hen, hnkeq])
      by_cases hk : (fs.known n && fs.valid n v) = true
      · have hrest := ih (fun k' => if k' = n then v else s k')
          (fun l hl => h l (by simp [hl]))
        rw [loadLines_cons_entry_ok _ hc (flagSet_pos hk s)]
        show (loadLines (flagSet fs) rest (fun k' => if k' = n then v else s k')).state k = s k
        rw [hrest]
        show (if k = n then v else s k) = s k
        rw [if_neg (fun hkeq => hnk (Eq.symm hkeq))]
      · rw [loadLines_cons_entry_fail _ hc (flagSet_neg hk s)]

/-- Witness for C9: the spec's §8 scenario, where `server-host` is not
mentioned and keeps its default. -/
theorem load_frame_witness :
    (loadLines (flagSet fsW)
      [str "db-url = example.com:5432", str "server-port = 9090", str "debug = true"]
      valsHost).state (str "server-host") = valsHost (str "server-host") :=
  load_frame fsW
    [str "db-url = example.com:5432", str "server-port = 9090", str "debug = true"]
    (str "server-host") valsHost (by decide)

/-- C10: `#` is a comment marker only as the first non-whitespace character
of a line: on an entry line, a `#` occurring inside the value is ordinary
data and is forwarded verbatim to the registry — no inline-comment
stripping. -/
theorem load_hash_kept {σ : Type} (set : σ → List Char → List Char → Option σ) (s : σ)
    (w1 w2 w3 w4 name value : List Char)
    (hw1 : ∀ c ∈ w1, isSpace c = true) (hw2 : ∀ c ∈ w2, isSpace c = true)
    (hw3 : ∀ c ∈ w3, isSpace c = true) (hw4 : ∀ c ∈ w4, isSpace c = true)
    (hne : name ≠ []) (hn : trimSpace name = name) (hv : trimSpace value = value)
    (hhash : name.head? ≠ some '#') (heq : '=' ∉ name)
    (_hmem : '#' ∈ value) :
    (loadLines set [w1 ++ name ++ w2 ++ '=' :: (w3 ++ value ++ w4)] s).calls
      = [(name, value)] :=
  loadLines_single_calls set (classify_sandwich' hw1 hw2 hw3 hw4 hne hn hv hhash heq) s

/-- Witness for C10: the line `key = value # comment`. -/
theorem load_hash_kept_witness :
    (loadLines (flagSet fsW)
      [[] ++ str "key" ++ str " " ++ '=' :: (str " " ++ str "value # comment" ++ [])]
      valsW).calls = [(str "key", str "value # comment")] :=
  load_hash_kept (flagSet fsW) valsW [] (str " ") (str " ") []
    (str "key") (str "value # comment")
    (by decide) (by decide) (by decide) (by decide) (by decide) (by decide) (by decide)
    (by decide) (by decide) (by decide)

end ConfigFile
